import Mathlib

/-!
A verification development for the `cft` package of the rain repository:
the path-query engine over YAML-style trees (`Template.MatchPath`,
`Template.GetPath`, `matchPath`, `filter`).

The Go code is embedded shallowly:

* `yaml.Node` becomes `Node`: every node carries a `kind`, a literal
  `value` string (empty for non-scalar nodes as produced by the YAML
  deserializer, but the field exists on every node exactly as in
  `yaml.Node`), and an ordered `content` list of children.
* The channel-based producer of `matchPath` becomes a function returning
  `MRes`: the ordered list of nodes emitted to the channel, together with
  a `panicked` flag.  The flag models a Go runtime panic (an
  out-of-range slice index); once a panic occurs no further nodes are
  produced, which `MRes.seq` encodes by short-circuiting.
* `strings.Split` is embedded per call site: the code only ever splits
  on `/`, `|` and `==`, so `splitSlash`, `splitPipe` and `splitEq`
  implement Go split semantics for those separators (structurally
  recursive so that concrete evaluation reduces).
* `strconv.Atoi` becomes `atoi : String → Option Int` (optional sign,
  at least one digit, nothing else; integer overflow of the machine
  `int` is not modelled — the indices compared against document sizes
  here are small).
-/

/-- The four `yaml.Kind` values that the engine distinguishes
(`yaml.DocumentNode`, `yaml.MappingNode`, `yaml.SequenceNode`,
`yaml.ScalarNode`). Alias nodes never occur in decoded templates handled
by this code and are treated like scalars (no special casing exists in
the source either). -/
inductive Kind where
  | document
  | mapping
  | sequence
  | scalar
deriving DecidableEq, Repr

/-- Shallow embedding of `yaml.Node`: kind, literal value, children. -/
inductive Node where
  | mk (kind : Kind) (value : String) (content : List Node)
deriving Repr

/-- The `Kind` field of a node. -/
def Node.kind : Node → Kind
  | .mk k _ _ => k

/-- The `Value` field of a node (empty for non-scalars in parser output). -/
def Node.value : Node → String
  | .mk _ v _ => v

/-- The `Content` field of a node. -/
def Node.content : Node → List Node
  | .mk _ _ c => c

theorem Node.sizeOf_content_lt (n : Node) : sizeOf n.content < sizeOf n := by
  cases n with
  | mk k v c => simp [Node.content]

/-- Result of running the producer goroutine of `MatchPath`: the nodes
sent on the channel, in order, and whether the traversal hit a Go
runtime panic (out-of-range slice index).  After a panic nothing more is
emitted. -/
structure MRes where
  out : List Node
  panicked : Bool
deriving Repr

/-- Sequencing of two traversal steps: if the first step panicked, the
second never runs. -/
def MRes.seq (a b : MRes) : MRes :=
  if a.panicked then a else ⟨a.out ++ b.out, b.panicked⟩

/-! ## String helpers embedding `strings.Split` and `strconv.Atoi` -/

/-- Go `strings.Split(s, sep)` for a single-character separator,
over the character list of the string. -/
def splitChar (sep : Char) : List Char → List (List Char)
  | [] => [[]]
  | x :: xs =>
    if x = sep then
      [] :: splitChar sep xs
    else
      match splitChar sep xs with
      | [] => [[x]]
      | r :: rs => (x :: r) :: rs

/-- Go `strings.Split(s, "==")` over the character list: scan left to
right, splitting at each non-overlapping occurrence of `==`. -/
def splitEqEqChars : List Char → List (List Char)
  | '=' :: '=' :: rest => [] :: splitEqEqChars rest
  | x :: rest =>
    match splitEqEqChars rest with
    | [] => [[x]]
    | r :: rs => (x :: r) :: rs
  | [] => [[]]

/-- `strings.Split(path, "/")` as used by `MatchPath`. -/
def splitSlash (s : String) : List String :=
  (splitChar '/' s.data).map (fun l => String.mk l)

/-- `strings.Split(head, "|")` as used by `matchPath`. -/
def splitPipe (s : String) : List String :=
  (splitChar '|' s.data).map (fun l => String.mk l)

/-- `strings.Split(q, "==")` as used by `filter`. -/
def splitEq (s : String) : List String :=
  (splitEqEqChars s.data).map (fun l => String.mk l)

/-- Accumulating decimal-digit parser: fails on any non-digit. -/
def digitsValAux : List Char → Nat → Option Nat
  | [], acc => some acc
  | c :: rest, acc =>
    if c.isDigit then digitsValAux rest (acc * 10 + (c.toNat - '0'.toNat))
    else none

/-- Go `strconv.Atoi`: optional single sign, then at least one digit and
nothing else (machine-int overflow not modelled). -/
def atoi (s : String) : Option Int :=
  match s.data with
  | [] => none
  | '+' :: rest =>
    match rest with
    | [] => none
    | _ => (digitsValAux rest 0).map (fun n => (n : Int))
  | '-' :: rest =>
    match rest with
    | [] => none
    | _ => (digitsValAux rest 0).map (fun n => -(n : Int))
  | l => (digitsValAux l 0).map (fun n => (n : Int))

/-- The query extraction of `matchPath` (lines 94-98 of the source):
split the segment on `|`; only when that yields exactly two parts does
the first become the match key and the second the (single-element)
query list, otherwise the segment is left whole and the query is empty. -/
def splitSegment (head : String) : String × List String :=
  let parts := splitPipe head
  if parts.length = 2 then (parts.headD "", parts.drop 1) else (head, [])

/-! ## The filter evaluator (`filter` in the source) -/

/-- The key lookup of `filter` on a mapping node's content: walk the
(key, value) pairs; `some (some v)` means the key was found with value
`v`, `some none` means it was not found, `none` means the Go code
panicked (the key matched at the last position of an odd-length content
list, so `n.Content[i+1]` is out of range). -/
def filterLookupMap (k : String) : List Node → Option (Option Node)
  | [] => some none
  | [key] => if key.value = k then none else some none
  | key :: v :: rest =>
    if key.value = k then some (some v) else filterLookupMap k rest

/-- The `value` computation of one `filter` clause (lines 134-154 of the
source): find the child named by the key part in a mapping, or indexed
by it in a sequence.  `some (some v)` is a found child, `some none` is
the `return false` of a failed lookup, `none` is a Go panic (negative
sequence index, or a matching dangling key). -/
def filterLookup (n : Node) (key : String) : Option (Option Node) :=
  if n.kind = Kind.mapping then
    filterLookupMap key n.content
  else if n.kind = Kind.sequence then
    match atoi key with
    | none => some none
    | some i =>
      if h2 : (n.content.length : Int) ≤ i then some none
      else if h1 : 0 ≤ i then
        some (some (n.content.get ⟨i.toNat, by omega⟩))
      else none
  else some none

/-- One clause of `filter`, after its query string has been split on
`==` into `parts`: look the key part up in the candidate node, then
apply the equality test exactly when the split produced two parts.
`none` models a Go panic inside the lookup. -/
def filterOne (n : Node) (parts : List String) : Option Bool :=
  match filterLookup n (parts.headD "") with
  | none => none
  | some none => some false
  | some (some value) =>
    -- In the source both branches of the final `if` return false, so the
    -- scalar-kind test is dead code; the effective test is the value
    -- comparison alone.
    if parts.length = 2 ∧ value.value ≠ parts.getD 1 "" then some false
    else some true

/-- `filter(n, query)`: every clause must pass; an empty query list
passes trivially.  `none` models a Go panic inside a clause. -/
def filter (n : Node) (query : List String) : Option Bool :=
  match query with
  | [] => some true
  | q :: rest =>
    match filterOne n (splitEq q) with
    | none => none
    | some false => some false
    | some true => filter n rest

/-! ## The path matcher (`matchPath` in the source)

The Go function writes matches to a channel and loops over node
contents; each loop of the source becomes one walker function below, and
the emission order of the channel becomes the order of `MRes.out`.
`walkAll` is the loop body shared verbatim by the document passthrough
(lines 63-68) and the sequence branch of the recursive-descent step
(lines 86-90): every child is matched against the same segment list. -/

mutual

def matchPath (n : Node) (path : List String) : MRes :=
  if n.kind = Kind.document then
    walkAll n.content path
  else
    match path with
    | [] => ⟨[n], false⟩
    | head :: tail =>
      let star :=
        if head = "**" then
          (matchPath n tail).seq
            (if n.kind = Kind.mapping then walkDescend n.content (head :: tail)
             else if n.kind = Kind.sequence then walkAll n.content (head :: tail)
             else ⟨[], false⟩)
        else ⟨[], false⟩
      star.seq (matchPlain n head tail)
termination_by sizeOf n + path.length
decreasing_by
  all_goals
    first
      | omega
      | (have hc := Node.sizeOf_content_lt n; omega)
      | (simp <;> omega)

/-- Match every element of `c` against the same segment list
(document passthrough, and `**` descent over a sequence). -/
def walkAll (c : List Node) (path : List String) : MRes :=
  match c with
  | [] => ⟨[], false⟩
  | x :: rest => (matchPath x path).seq (walkAll rest path)
termination_by sizeOf c + path.length
decreasing_by
  all_goals first | omega | (simp <;> omega)

/-- `**` descent over a mapping: match every value (`n.Content[i+1]` for
even `i`) against the full segment list.  An odd-length content list
makes the Go code read one past the end: a panic. -/
def walkDescend (c : List Node) (path : List String) : MRes :=
  match c with
  | [] => ⟨[], false⟩
  | [_] => ⟨[], true⟩
  | _ :: v :: rest => (matchPath v path).seq (walkDescend rest path)
termination_by sizeOf c + path.length
decreasing_by
  all_goals first | omega | (simp <;> omega)

/-- The plain matching step of `matchPath` (lines 93-127 of the source):
query extraction followed by the mapping / sequence dispatch.  This step
runs for every segment head, including `**`. -/
def matchPlain (n : Node) (head : String) (tail : List String) : MRes :=
  let hq := splitSegment head
  if n.kind = Kind.mapping then
    walkMap hq.1 hq.2 tail n.content
  else if n.kind = Kind.sequence then
    if hq.1 = "*" then
      walkSeqStar hq.2 tail n.content
    else
      match atoi hq.1 with
      | none => ⟨[], false⟩
      | some i =>
        if h2 : i < (n.content.length : Int) then
          if h1 : 0 ≤ i then
            match filter (n.content.get ⟨i.toNat, by omega⟩) hq.2 with
            | none => ⟨[], true⟩
            | some true => matchPath (n.content.get ⟨i.toNat, by omega⟩) tail
            | some false => ⟨[], false⟩
          else ⟨[], true⟩
        else ⟨[], false⟩
  else ⟨[], false⟩
termination_by sizeOf n + tail.length
decreasing_by
  all_goals
    first
      | (have hc := Node.sizeOf_content_lt n; omega)
      | (have h3 := List.sizeOf_lt_of_mem
           (List.get_mem n.content i.toNat (by omega))
         have := Node.sizeOf_content_lt n
         omega)
      | omega
      | (simp <;> omega)

/-- The mapping loop of the plain step: for each (key, value) pair whose
key matches (wildcard or literal equality) and whose value passes the
filter, match the value against the remaining segments.  The value of a
matching key at the last position of an odd-length content list is read
out of range by the Go code: a panic. -/
def walkMap (head : String) (query : List String) (tail : List String)
    (c : List Node) : MRes :=
  match c with
  | [] => ⟨[], false⟩
  | [key] =>
    if head = "*" ∨ key.value = head then ⟨[], true⟩ else ⟨[], false⟩
  | key :: v :: rest =>
    if head = "*" ∨ key.value = head then
      match filter v query with
      | none => ⟨[], true⟩
      | some true => (matchPath v tail).seq (walkMap head query tail rest)
      | some false => walkMap head query tail rest
    else walkMap head query tail rest
termination_by sizeOf c + tail.length
decreasing_by
  all_goals first | omega | (simp <;> omega)

/-- The sequence wildcard loop of the plain step: filter each element
and match it against the remaining segments. -/
def walkSeqStar (query : List String) (tail : List String)
    (c : List Node) : MRes :=
  match c with
  | [] => ⟨[], false⟩
  | child :: rest =>
    match filter child query with
    | none => ⟨[], true⟩
    | some true => (matchPath child tail).seq (walkSeqStar query tail rest)
    | some false => walkSeqStar query tail rest
termination_by sizeOf c + tail.length
decreasing_by
  all_goals first | omega | (simp <;> omega)

end

/-! ## The template facade (`Template.MatchPath`, `Template.GetPath`)

A `Template` in the source is a struct embedding its root `yaml.Node`,
so the facade functions here take the root node directly. -/

/-- `Template.MatchPath`: split the path on `/` and run the matcher on
the template's root node.  The resulting `MRes` is the full channel
transcript of the producer goroutine. -/
def MatchPath (t : Node) (path : String) : MRes :=
  matchPath t (splitSlash path)

/-- `Template.GetPath`: drain the channel of `MatchPath`; return the
single collected node iff exactly one was collected.  The outer `none`
models the producer panicking, in which case the Go program crashes and
`GetPath` never returns. -/
def GetPath (t : Node) (path : String) : Option (Option Node) :=
  let r := MatchPath t path
  if r.panicked then none
  else
    some
      (match r.out with
       | [n] => some n
       | _ => none)

/-! ## Helpers used only in theorem statements -/

/-- The values of a mapping's content list (`Content[i+1]` for even `i`);
a dangling key contributes nothing. -/
def pairValues : List Node → List Node
  | [] => []
  | [_] => []
  | _ :: v :: rest => v :: pairValues rest

/-- The keys of a mapping's content list (`Content[i]` for even `i`),
including a dangling key at the end of an odd-length list. -/
def mapKeys : List Node → List Node
  | [] => []
  | [k] => [k]
  | k :: _ :: rest => k :: mapKeys rest

/-- The children that the `**` descent step visits: mapping values, or
sequence elements, and nothing for other node kinds. -/
def descendants (n : Node) : List Node :=
  if n.kind = Kind.mapping then pairValues n.content
  else if n.kind = Kind.sequence then n.content
  else []

/-- Two-step induction on lists, following the pairwise walk of mapping
content. -/
def listPairInduction {α : Type} {P : List α → Prop} (h0 : P [])
    (h1 : ∀ k, P [k]) (h2 : ∀ k v rest, P rest → P (k :: v :: rest)) :
    ∀ c, P c
  | [] => h0
  | [k] => h1 k
  | k :: v :: rest => h2 k v rest (listPairInduction h0 h1 h2 rest)

/-! ## General lemmas about the traversal -/

@[simp] theorem Node.kind_mk (k : Kind) (v : String) (c : List Node) :
    (Node.mk k v c).kind = k := rfl

@[simp] theorem Node.value_mk (k : Kind) (v : String) (c : List Node) :
    (Node.mk k v c).value = v := rfl

@[simp] theorem Node.content_mk (k : Kind) (v : String) (c : List Node) :
    (Node.mk k v c).content = c := rfl

theorem Node.sizeOf_pos (n : Node) : 0 < sizeOf n := by
  cases n with
  | mk k v c => simp

@[simp] theorem MRes.out_mk (o : List Node) (p : Bool) : (MRes.mk o p).out = o := rfl

@[simp] theorem MRes.panicked_mk (o : List Node) (p : Bool) :
    (MRes.mk o p).panicked = p := rfl

theorem MRes.seq_panicked (a b : MRes) :
    (a.seq b).panicked = (a.panicked || b.panicked) := by
  unfold MRes.seq
  by_cases h : a.panicked = true <;> simp [h]

theorem MRes.seq_out_of_not_panicked {a : MRes} (b : MRes)
    (h : a.panicked = false) : (a.seq b).out = a.out ++ b.out := by
  unfold MRes.seq
  simp [h]

@[simp] theorem MRes.seq_empty_left (b : MRes) : (MRes.mk [] false).seq b = b := by
  unfold MRes.seq
  simp

theorem splitChar_length (sep : Char) :
    ∀ l : List Char, (splitChar sep l).length = l.count sep + 1 := by
  intro l
  induction l with
  | nil => simp [splitChar]
  | cons x xs ih =>
    by_cases hx : x = sep
    · simp [splitChar, hx, List.count_cons, ih]
    · cases h : splitChar sep xs with
      | nil => rw [h] at ih; simp at ih
      | cons r rs =>
        rw [h] at ih
        simp only [splitChar, if_neg hx, h]
        simp only [List.length_cons] at ih ⊢
        simp [List.count_cons, hx, ih]

theorem mem_seq_out {a b : MRes} {m : Node} (h : m ∈ (a.seq b).out) :
    m ∈ a.out ∨ m ∈ b.out := by
  by_cases hp : a.panicked <;> simp [MRes.seq, hp] at h <;> tauto

theorem walkAll_out_of_not_panicked (p : List String) :
    ∀ (c : List Node), (walkAll c p).panicked = false →
      (walkAll c p).out = c.flatMap (fun x => (matchPath x p).out) := by
  intro c
  induction c with
  | nil => intro h; simp [walkAll]
  | cons x rest ih =>
    intro h
    simp only [walkAll] at h ⊢
    rw [MRes.seq_panicked] at h
    simp only [Bool.or_eq_false_iff] at h
    rw [MRes.seq_out_of_not_panicked _ h.1, ih h.2]
    simp

theorem walkDescend_out_of_not_panicked (p : List String) :
    ∀ (c : List Node), (walkDescend c p).panicked = false →
      (walkDescend c p).out = (pairValues c).flatMap (fun v => (matchPath v p).out) := by
  intro c
  induction c using listPairInduction with
  | h0 => intro h; simp [walkDescend, pairValues]
  | h1 k => intro h; simp [walkDescend] at h
  | h2 k v rest ih =>
    intro h
    simp only [walkDescend] at h ⊢
    rw [MRes.seq_panicked] at h
    simp only [Bool.or_eq_false_iff] at h
    rw [MRes.seq_out_of_not_panicked _ h.1, ih h.2]
    simp [pairValues]

theorem walkMap_eq_empty_of_no_key (head : String) (query tail : List String)
    (hstar : head ≠ "*") :
    ∀ (c : List Node), (∀ k ∈ mapKeys c, k.value ≠ head) →
      walkMap head query tail c = ⟨[], false⟩ := by
  intro c
  induction c using listPairInduction with
  | h0 => intro hk; simp [walkMap]
  | h1 k =>
    intro hk
    have hkv : k.value ≠ head := hk k (by simp [mapKeys])
    simp [walkMap, hstar, hkv]
  | h2 k v rest ih =>
    intro hk
    have hkv : k.value ≠ head := hk k (by simp [mapKeys])
    have hrest : ∀ k ∈ mapKeys rest, k.value ≠ head := by
      intro x hx
      exact hk x (by simp [mapKeys, hx])
    simp only [walkMap]
    rw [if_neg (by tauto)]
    exact ih hrest

theorem mem_walkAll_out {p : List String} {m : Node} :
    ∀ {c : List Node}, m ∈ (walkAll c p).out →
      ∃ x ∈ c, m ∈ (matchPath x p).out := by
  intro c
  induction c with
  | nil => intro h; simp [walkAll] at h
  | cons x rest ih =>
    intro h
    simp only [walkAll] at h
    rcases mem_seq_out h with h1 | h2
    · exact ⟨x, by simp, h1⟩
    · rcases ih h2 with ⟨y, hy, hmy⟩
      exact ⟨y, by simp [hy], hmy⟩

theorem mem_walkDescend_out {p : List String} {m : Node} :
    ∀ {c : List Node}, m ∈ (walkDescend c p).out →
      ∃ x ∈ c, m ∈ (matchPath x p).out := by
  intro c
  induction c using listPairInduction with
  | h0 => intro h; simp [walkDescend] at h
  | h1 k => intro h; simp [walkDescend] at h
  | h2 k v rest ih =>
    intro h
    simp only [walkDescend] at h
    rcases mem_seq_out h with h1 | h2
    · exact ⟨v, by simp, h1⟩
    · rcases ih h2 with ⟨y, hy, hmy⟩
      exact ⟨y, by simp [hy], hmy⟩

theorem mem_walkMap_out {head : String} {query tail : List String} {m : Node} :
    ∀ {c : List Node}, m ∈ (walkMap head query tail c).out →
      ∃ x ∈ c, m ∈ (matchPath x tail).out := by
  intro c
  induction c using listPairInduction with
  | h0 => intro h; simp [walkMap] at h
  | h1 k =>
    intro h
    by_cases hc : head = "*" ∨ k.value = head <;> simp [walkMap, hc] at h
  | h2 k v rest ih =>
    intro h
    simp only [walkMap] at h
    by_cases hc : head = "*" ∨ k.value = head
    · rw [if_pos hc] at h
      cases hf : filter v query with
      | none => rw [hf] at h; simp at h
      | some b =>
        cases b with
        | true =>
          rw [hf] at h
          rcases mem_seq_out h with h1 | h2
          · exact ⟨v, by simp, h1⟩
          · rcases ih h2 with ⟨y, hy, hmy⟩
            exact ⟨y, by simp [hy], hmy⟩
        | false =>
          rw [hf] at h
          rcases ih h with ⟨y, hy, hmy⟩
          exact ⟨y, by simp [hy], hmy⟩
    · rw [if_neg hc] at h
      rcases ih h with ⟨y, hy, hmy⟩
      exact ⟨y, by simp [hy], hmy⟩

theorem mem_walkSeqStar_out {query tail : List String} {m : Node} :
    ∀ {c : List Node}, m ∈ (walkSeqStar query tail c).out →
      ∃ x ∈ c, m ∈ (matchPath x tail).out := by
  intro c
  induction c with
  | nil => intro h; simp [walkSeqStar] at h
  | cons x rest ih =>
    intro h
    simp only [walkSeqStar] at h
    cases hf : filter x query with
    | none => rw [hf] at h; simp at h
    | some b =>
      cases b with
      | true =>
        rw [hf] at h
        rcases mem_seq_out h with h1 | h2
        · exact ⟨x, by simp, h1⟩
        · rcases ih h2 with ⟨y, hy, hmy⟩
          exact ⟨y, by simp [hy], hmy⟩
      | false =>
        rw [hf] at h
        rcases ih h with ⟨y, hy, hmy⟩
        exact ⟨y, by simp [hy], hmy⟩

theorem mem_matchPlain_out {n : Node} {head : String} {tail : List String}
    {m : Node} (h : m ∈ (matchPlain n head tail).out) :
    ∃ x ∈ n.content, m ∈ (matchPath x tail).out := by
  simp only [matchPlain] at h
  by_cases hm : n.kind = Kind.mapping
  · rw [if_pos hm] at h
    exact mem_walkMap_out h
  · rw [if_neg hm] at h
    by_cases hs : n.kind = Kind.sequence
    · rw [if_pos hs] at h
      by_cases hstar : (splitSegment head).1 = "*"
      · rw [if_pos hstar] at h
        exact mem_walkSeqStar_out h
      · rw [if_neg hstar] at h
        split at h
        · simp at h
        · split at h
          · split at h
            · split at h
              · simp at h
              · exact ⟨_, List.get_mem _ _ _, h⟩
              · simp at h
            · simp at h
          · simp at h
    · rw [if_neg hs] at h
      simp at h

theorem matchPath_out_kind_ne_document :
    ∀ (fuel : Nat) (n : Node) (path : List String),
      sizeOf n + path.length ≤ fuel →
      ∀ m ∈ (matchPath n path).out, m.kind ≠ Kind.document := by
  intro fuel
  induction fuel with
  | zero =>
    intro n path hle
    have := Node.sizeOf_pos n
    omega
  | succ k ih =>
    intro n path hle m hm
    have hcontent := Node.sizeOf_content_lt n
    by_cases hdoc : n.kind = Kind.document
    · rw [matchPath.eq_def, if_pos hdoc] at hm
      rcases mem_walkAll_out hm with ⟨x, hx, hmx⟩
      have hxs := List.sizeOf_lt_of_mem hx
      exact ih x path (by omega) m hmx
    · cases path with
      | nil =>
        rw [matchPath.eq_def, if_neg hdoc] at hm
        simp at hm
        rw [hm]
        exact hdoc
      | cons head tail =>
        rw [matchPath.eq_def, if_neg hdoc] at hm
        simp only [List.length_cons] at hle
        rcases mem_seq_out hm with hstar | hplain
        · by_cases hh : head = "**"
          · rw [if_pos hh] at hstar
            rcases mem_seq_out hstar with hzw | hdesc
            · exact ih n tail (by omega) m hzw
            · by_cases hmap : n.kind = Kind.mapping
              · rw [if_pos hmap] at hdesc
                rcases mem_walkDescend_out hdesc with ⟨x, hx, hmx⟩
                have hxs := List.sizeOf_lt_of_mem hx
                exact ih x (head :: tail) (by simp; omega) m hmx
              · rw [if_neg hmap] at hdesc
                by_cases hseq : n.kind = Kind.sequence
                · rw [if_pos hseq] at hdesc
                  rcases mem_walkAll_out hdesc with ⟨x, hx, hmx⟩
                  have hxs := List.sizeOf_lt_of_mem hx
                  exact ih x (head :: tail) (by simp; omega) m hmx
                · rw [if_neg hseq] at hdesc
                  simp at hdesc
          · rw [if_neg hh] at hstar
            simp at hstar
        · rcases mem_matchPlain_out hplain with ⟨x, hx, hmx⟩
          have hxs := List.sizeOf_lt_of_mem hx
          exact ih x tail (by omega) m hmx

/-! ## The claims -/

/-- C1: for every path string, `GetPath` returns a non-nil node iff the
`MatchPath` traversal completes and emits exactly one node, in which
case the returned node is that sole emitted node; when zero nodes or
two or more nodes are emitted, `GetPath` returns nil in both cases, so
the two outcomes are indistinguishable from the result. -/
theorem getPath_iff_single_match (t : Node) (p : String) :
    (∀ n : Node, GetPath t p = some (some n) ↔ MatchPath t p = ⟨[n], false⟩) ∧
    (GetPath t p = some none ↔
      ((MatchPath t p).panicked = false ∧ (MatchPath t p).out.length ≠ 1)) := by
  unfold GetPath
  rcases hR : MatchPath t p with ⟨out, pk⟩
  cases pk
  · cases out with
    | nil => simp
    | cons a rest =>
      cases rest with
      | nil => simp [MRes.mk.injEq]
      | cons b rest2 => simp
  · simp

/-- C2: for every non-document node and `**` head, the match result is
the zero-width attempt (tail at the same node) followed by the descent
attempt (the full, unshortened segment list mapped over the mapping
values or sequence elements), followed by the plain step — so all
zero-width matches are emitted before any descent match. -/
theorem matchPath_descent_order (n : Node) (tail : List String)
    (hdoc : n.kind ≠ Kind.document)
    (hnp : (matchPath n ("**" :: tail)).panicked = false) :
    (matchPath n ("**" :: tail)).out =
      (matchPath n tail).out
        ++ (descendants n).flatMap (fun c => (matchPath c ("**" :: tail)).out)
        ++ (matchPlain n "**" tail).out := by
  have heq : matchPath n ("**" :: tail) =
      ((matchPath n tail).seq
        (if n.kind = Kind.mapping then walkDescend n.content ("**" :: tail)
         else if n.kind = Kind.sequence then walkAll n.content ("**" :: tail)
         else ⟨[], false⟩)).seq (matchPlain n "**" tail) := by
    rw [matchPath.eq_def]
    simp [hdoc]
  rw [heq] at hnp ⊢
  rw [MRes.seq_panicked, MRes.seq_panicked] at hnp
  simp only [Bool.or_eq_false_iff] at hnp
  obtain ⟨⟨hzw, hD⟩, hP⟩ := hnp
  rw [MRes.seq_out_of_not_panicked _ (by rw [MRes.seq_panicked, hzw, hD]; rfl),
      MRes.seq_out_of_not_panicked _ hzw]
  congr 1
  congr 1
  by_cases hmap : n.kind = Kind.mapping
  · rw [if_pos hmap] at hD ⊢
    rw [walkDescend_out_of_not_panicked _ _ hD]
    simp [descendants, hmap]
  · rw [if_neg hmap] at hD ⊢
    by_cases hseq : n.kind = Kind.sequence
    · rw [if_pos hseq] at hD ⊢
      rw [walkAll_out_of_not_panicked _ _ hD]
      simp [descendants, hmap, hseq]
    · rw [if_neg hseq] at hD ⊢
      simp [descendants, hmap, hseq]

/-- Witness for C2 at a concrete mapping node and empty tail: the node
itself (zero-width) is emitted before the descent match of its value. -/
theorem matchPath_descent_order_witness :
    (matchPath (Node.mk Kind.mapping "" [Node.mk Kind.scalar "A" [], Node.mk Kind.scalar "x" []])
        ("**" :: [])).out =
      (matchPath (Node.mk Kind.mapping "" [Node.mk Kind.scalar "A" [], Node.mk Kind.scalar "x" []]) []).out
        ++ (descendants (Node.mk Kind.mapping "" [Node.mk Kind.scalar "A" [], Node.mk Kind.scalar "x" []])).flatMap
            (fun c => (matchPath c ("**" :: [])).out)
        ++ (matchPlain (Node.mk Kind.mapping "" [Node.mk Kind.scalar "A" [], Node.mk Kind.scalar "x" []]) "**" []).out :=
  matchPath_descent_order
    (Node.mk Kind.mapping "" [Node.mk Kind.scalar "A" [], Node.mk Kind.scalar "x" []]) []
    (by simp)
    (by simp [matchPath, matchPlain, walkAll, walkDescend, walkMap, walkSeqStar,
              MRes.seq, splitSegment, splitPipe, splitChar, atoi, digitsValAux, filter])

/-- C3: evaluation at the failing input.  The claim says a negative
sequence index silently yields zero matches and that the matcher and the
filter evaluator never read a sequence element out of bounds; but on a
sequence node the guard `i < len(n.Content)` lets any negative parsed
index through to `n.Content[i]`, a Go runtime panic (and in `filter`
the guard `i >= len(n.Content)` likewise misses negative indices).  The
`panicked` flag records exactly that out-of-bounds read. -/
theorem negative_index_panics :
    matchPath (Node.mk Kind.sequence "" [Node.mk Kind.scalar "a" []]) ["-1"] =
      ⟨[], true⟩ ∧
    filter (Node.mk Kind.sequence "" [Node.mk Kind.scalar "a" []]) ["-1==a"] =
      none := by
  constructor
  · simp [matchPath, matchPlain, walkAll, walkDescend, walkMap, walkSeqStar,
          MRes.seq, splitSegment, splitPipe, splitChar, atoi, digitsValAux, filter]
  · simp [filter, filterOne, filterLookup, splitEq, splitEqEqChars,
          filterLookupMap, atoi, digitsValAux]

/-- C4 counterexample: on the segment `x|a|b` the claim predicts match
key `x` with the single filter-query string `a|b`; the plain
`strings.Split` yields three parts, the two-part branch is skipped, and
the segment is left whole with no query. -/
theorem splitSegment_multi_pipe_counterexample :
    ¬ (splitSegment "x|a|b" = ("x", ["a|b"])) := by
  decide

/-- C4 amended: the filter extraction applies only when splitting on `|`
yields exactly two parts, i.e. when the segment contains exactly one `|`
character; a segment with two or more `|` characters (or none) is kept
whole as the match key and carries no filter query. -/
theorem splitSegment_amended (s : String) :
    splitSegment s =
      if s.data.count '|' = 1 then ((splitPipe s).headD "", (splitPipe s).drop 1)
      else (s, []) := by
  simp only [splitSegment, splitPipe]
  by_cases hc : s.data.count '|' = 1
  · have hlen : (splitChar '|' s.data).length = 2 := by
      simp [splitChar_length, hc]
    simp [hc, hlen]
  · have hlen : ¬ (splitChar '|' s.data).length = 2 := by
      rw [splitChar_length]
      omega
    simp [hc, hlen]

/-- C5 counterexample: with filter query `k==` (the `==` split yields
exactly two parts, the expected value being the empty string) and a
looked-up child that is a mapping — hence not a scalar, with the empty
literal `Value` that the deserializer gives every non-scalar — the
clause passes, because the code only compares `value.Value` with the
expected part; the claim says a non-scalar looked-up child always fails
the equality clause. -/
theorem filter_nonscalar_counterexample :
    (splitEq "k==").length = 2 ∧
    (Node.mk Kind.mapping "" []).kind ≠ Kind.scalar ∧
    filter (Node.mk Kind.mapping ""
        [Node.mk Kind.scalar "k" [], Node.mk Kind.mapping "" []]) ["k=="] =
      some true := by
  decide

/-- C5 amended: when the `==` split produced exactly two parts and the
lookup found a child, the clause result depends only on the child's
literal `Value` field, never on its kind: it fails iff that literal
differs from the expected part.  A non-scalar child (whose literal is
empty in deserializer output) therefore fails exactly when the expected
value is non-empty, and passes when the expected value is the empty
string. -/
theorem filterOne_compares_value_only (n : Node) (k v : String) (child : Node)
    (hl : filterLookup n k = some (some child)) :
    filterOne n [k, v] = some (decide (child.value = v)) := by
  simp only [filterOne, List.headD_cons, hl]
  by_cases hv : child.value = v <;> simp [hv]

/-- Witness for C5's amended theorem: the non-scalar child found under
key `k` has empty literal, so the clause with expected value `""`
evaluates to the value comparison, which succeeds. -/
theorem filterOne_compares_value_only_witness :
    filterOne (Node.mk Kind.mapping ""
        [Node.mk Kind.scalar "k" [], Node.mk Kind.mapping "" []]) ["k", ""] =
      some (decide ((Node.mk Kind.mapping "" []).value = "")) :=
  filterOne_compares_value_only
    (Node.mk Kind.mapping "" [Node.mk Kind.scalar "k" [], Node.mk Kind.mapping "" []])
    "k" "" (Node.mk Kind.mapping "" []) (by rfl)

/-- C6 counterexample: against a candidate whose key `key` holds the
scalar `zzz`, the query `key==a==b` passes (the three-part split skips
the equality test entirely) while the claimed equivalent truncation
`key==a` fails — so the two do not evaluate the same. -/
theorem filter_multi_eq_counterexample :
    filter (Node.mk Kind.mapping ""
        [Node.mk Kind.scalar "key" [], Node.mk Kind.scalar "zzz" []])
      ["key==a==b"] = some true ∧
    filter (Node.mk Kind.mapping ""
        [Node.mk Kind.scalar "key" [], Node.mk Kind.scalar "zzz" []])
      ["key==a"] = some false := by
  decide

/-- C6 amended: when the split on `==` yields three or more parts,
everything past part 0 (the key) is ignored: the clause evaluates
exactly as the bare existence query consisting of the key alone would,
not as the two-part truncation. -/
theorem filterOne_extra_parts_ignored (n : Node) (k a b : String)
    (rest : List String) :
    filterOne n (k :: a :: b :: rest) = filterOne n [k] := by
  simp only [filterOne, List.headD_cons]
  cases hl : filterLookup n k with
  | none => rfl
  | some o =>
    cases o with
    | none => rfl
    | some child => simp

/-- C7: splitting the empty path yields one empty-string segment, not
zero segments; `MatchPath` on the empty path therefore runs the matcher
with that single empty segment, so the root is never emitted as an
already-exhausted match — a literal lookup of the empty-string mapping
key is attempted instead, and on a root mapping without an empty-string
key the empty path yields zero matches. -/
theorem empty_path_one_empty_segment :
    splitSlash "" = [""] ∧
    (∀ t : Node, MatchPath t "" = matchPath t [""]) ∧
    (∀ (dv v : String) (c : List Node), (∀ k ∈ mapKeys c, k.value ≠ "") →
      matchPath (Node.mk Kind.document dv [Node.mk Kind.mapping v c]) [""] =
        ⟨[], false⟩) := by
  have h1 : splitSlash "" = [""] := by rfl
  refine ⟨h1, fun t => by rw [MatchPath, h1], ?_⟩
  intro dv v c hk
  have hm : matchPath (Node.mk Kind.mapping v c) [""] = ⟨[], false⟩ := by
    rw [matchPath.eq_def]
    simp [matchPlain, splitSegment, splitPipe, splitChar,
          walkMap_eq_empty_of_no_key "" [] [] (by decide) c hk]
  rw [matchPath.eq_def]
  simp [walkAll, hm, MRes.seq]

/-- Witness for C7's universally quantified part, at a root mapping with
keys `A` (none of them empty). -/
theorem empty_path_one_empty_segment_witness :
    matchPath (Node.mk Kind.document "" [Node.mk Kind.mapping ""
        [Node.mk Kind.scalar "A" [], Node.mk Kind.scalar "x" []]]) [""] =
      ⟨[], false⟩ :=
  empty_path_one_empty_segment.2.2 "" ""
    [Node.mk Kind.scalar "A" [], Node.mk Kind.scalar "x" []] (by decide)

/-- C8 counterexample: on a mapping with the literal key `**`, the plain
step after the two recursive-descent attempts does match that key, so it
contributes an extra match: the value `val` is emitted twice, once by
the descent attempt and once by the plain step. -/
theorem matchPlain_star_star_counterexample :
    matchPath (Node.mk Kind.mapping ""
        [Node.mk Kind.scalar "**" [], Node.mk Kind.scalar "val" []]) ["**"] =
      ⟨[Node.mk Kind.mapping ""
          [Node.mk Kind.scalar "**" [], Node.mk Kind.scalar "val" []],
        Node.mk Kind.scalar "val" [], Node.mk Kind.scalar "val" []], false⟩ ∧
    (matchPlain (Node.mk Kind.mapping ""
        [Node.mk Kind.scalar "**" [], Node.mk Kind.scalar "val" []]) "**" []).out =
      [Node.mk Kind.scalar "val" []] := by
  constructor <;>
    simp [matchPath, matchPlain, walkAll, walkDescend, walkMap, walkSeqStar,
          MRes.seq, splitSegment, splitPipe, splitChar, atoi, digitsValAux,
          filter]

/-- C8 amended: the plain step run after a `**` head's two descent
attempts can only contribute matches through a mapping key literally
equal to `**`.  A sequence node never contributes (`**` is neither `*`
nor numeric), a scalar or document node never contributes, and a
mapping contributes only when one of its keys is the literal string
`**` — so whenever the node is not a mapping, or is a mapping with no
`**` key, the plain step yields no matches. -/
theorem matchPlain_star_star_amended (n : Node) (tail : List String)
    (hk : n.kind = Kind.mapping → ∀ k ∈ mapKeys n.content, k.value ≠ "**") :
    matchPlain n "**" tail = ⟨[], false⟩ := by
  have hsplit : splitSegment "**" = ("**", []) := by rfl
  have ha : atoi "**" = none := by rfl
  by_cases hm : n.kind = Kind.mapping
  · have hw := walkMap_eq_empty_of_no_key "**" [] tail (by decide) n.content (hk hm)
    simp [matchPlain, hsplit, ha, hw]
  · simp [matchPlain, hsplit, ha, hm]

/-- Witness for C8's amended theorem, at a mapping with the single key
`A` and at a sequence containing a literal `**` element (which the
sequence branch still ignores). -/
theorem matchPlain_star_star_amended_witness :
    matchPlain (Node.mk Kind.mapping ""
        [Node.mk Kind.scalar "A" [], Node.mk Kind.scalar "x" []]) "**" [] =
      ⟨[], false⟩ ∧
    matchPlain (Node.mk Kind.sequence "" [Node.mk Kind.scalar "**" []]) "**" [] =
      ⟨[], false⟩ :=
  ⟨matchPlain_star_star_amended
    (Node.mk Kind.mapping "" [Node.mk Kind.scalar "A" [], Node.mk Kind.scalar "x" []])
    [] (by decide),
   matchPlain_star_star_amended
    (Node.mk Kind.sequence "" [Node.mk Kind.scalar "**" []])
    [] (by decide)⟩

/-- C9: the traversal is a pure function of the template tree and the
path string — the producer is a single goroutine whose emission order is
fixed by the recursion — so two runs of `MatchPath` with the same path
against the unmodified template produce the same transcript: the same
nodes in the same order. -/
theorem matchPath_deterministic (t : Node) (p : String) (r1 r2 : MRes)
    (h1 : MatchPath t p = r1) (h2 : MatchPath t p = r2) :
    r1 = r2 ∧ r1.out = r2.out := by
  rw [← h1, ← h2]
  exact ⟨rfl, rfl⟩

/-- Witness for C9 at a concrete template and path. -/
theorem matchPath_deterministic_witness :
    MatchPath (Node.mk Kind.document ""
        [Node.mk Kind.mapping ""
          [Node.mk Kind.scalar "A" [], Node.mk Kind.scalar "x" []]]) "A" =
      MatchPath (Node.mk Kind.document ""
        [Node.mk Kind.mapping ""
          [Node.mk Kind.scalar "A" [], Node.mk Kind.scalar "x" []]]) "A" :=
  (matchPath_deterministic
    (Node.mk Kind.document ""
      [Node.mk Kind.mapping ""
        [Node.mk Kind.scalar "A" [], Node.mk Kind.scalar "x" []]]) "A"
    (MatchPath (Node.mk Kind.document ""
      [Node.mk Kind.mapping ""
        [Node.mk Kind.scalar "A" [], Node.mk Kind.scalar "x" []]]) "A")
    (MatchPath (Node.mk Kind.document ""
      [Node.mk Kind.mapping ""
        [Node.mk Kind.scalar "A" [], Node.mk Kind.scalar "x" []]]) "A")
    rfl rfl).1

/-- C10: no node emitted by `MatchPath` is a document node: the document
check precedes the empty-segment-list emission in `matchPath`, so a
document node is always unwrapped into its children before anything can
be emitted. -/
theorem matchPath_never_emits_document (t : Node) (p : String) (m : Node)
    (hm : m ∈ (MatchPath t p).out) : m.kind ≠ Kind.document := by
  rw [MatchPath] at hm
  exact matchPath_out_kind_ne_document (sizeOf t + (splitSlash p).length) t
    (splitSlash p) (le_refl _) m hm

/-- Witness for C10: the node emitted for path `A` is the scalar `x`,
and it is not a document node. -/
theorem matchPath_never_emits_document_witness :
    (Node.mk Kind.scalar "x" []).kind ≠ Kind.document :=
  matchPath_never_emits_document
    (Node.mk Kind.document ""
      [Node.mk Kind.mapping ""
        [Node.mk Kind.scalar "A" [], Node.mk Kind.scalar "x" []]]) "A"
    (Node.mk Kind.scalar "x" [])
    (by simp [MatchPath, splitSlash, splitChar, matchPath, matchPlain, walkAll,
              walkDescend, walkMap, walkSeqStar, MRes.seq, splitSegment,
              splitPipe, atoi, digitsValAux, filter])
